import Mathlib

/-!
Verification of the frosty-quill rich-text adapter (src/src/quill/index.tsx).

The adapter converts between a line/segment document model (`Line`, `Segment`)
and the quill-delta operation list (`Op`), strips trailing empty lines,
gates change propagation on pointer state, and rewrites embedded image assets.

Modelling conventions:
* JS strings are modelled as `List Char` (a JS string is a sequence of code
  units; none of the adapter code depends on encoding details).
* attribute maps are modelled as association lists `List (String × String)`;
  lodash `_.isEmpty` on an object is emptiness of the list, and object
  equality is structural equality of the list.
* a delta op `{ insert?, attributes? }` is modelled by `Op`; ops that carry
  no `insert` field (retains/deletes reaching `decodeContent`) have
  `insert = none`.
* quill-delta `Delta.insert`/`Delta.push` (the only delta constructors the
  adapter uses) are embedded as `insertOp`/`pushOp`, including the
  drop-empty-string rule and the merge rule for adjacent string inserts
  with equal attributes.
-/

namespace FrostyQuill

/-- Attribute maps (`Record<string, unknown>` in the source), as association lists. -/
abbrev Attrs := List (String × String)

/-- The value of an `insert`: a text run or an embed object.  An embed is an
object whose fields are modelled as string-valued; the image format stores
`\x7b image: url \x7d`. -/
inductive InsertVal where
  | str (s : List Char)
  | embed (data : List (String × String))
deriving DecidableEq

/-- One inline run of a line (`Segment` in src/src/quill/types). -/
structure Segment where
  insert : InsertVal
  attributes : Attrs
deriving DecidableEq

/-- One paragraph/block (`Line` in src/src/quill/types). -/
structure Line where
  segments : List Segment
  attributes : Attrs
deriving DecidableEq

/-- A quill-delta operation: optional `insert` payload and optional
`attributes` map (absent field is `none`). -/
structure Op where
  insert : Option InsertVal
  attributes : Option Attrs
deriving DecidableEq

/-- Attribute option attached by `Delta.insert`: the `attributes` field is
only set when the map is a non-empty object. -/
def attrOpt (a : Attrs) : Option Attrs :=
  if a = [] then none else some a

/-- Embedding of quill-delta `Delta.push` restricted to insert ops (the only
ops the adapter pushes): a new string insert merges into a trailing string
insert with equal attributes, otherwise the op is appended. -/
def pushOp (ops : List Op) (op : Op) : List Op :=
  match ops.getLast? with
  | none => ops ++ [op]
  | some lastOp =>
    match lastOp.insert, op.insert with
    | some (.str s1), some (.str s2) =>
      if lastOp.attributes = op.attributes then
        ops.dropLast ++ [⟨some (.str (s1 ++ s2)), op.attributes⟩]
      else
        ops ++ [op]
    | _, _ => ops ++ [op]

/-- Embedding of quill-delta `Delta.insert`: empty string inserts are
dropped, attributes are attached only when non-empty, then `push`. -/
def insertOp (ops : List Op) (v : InsertVal) (a : Attrs) : List Op :=
  match v with
  | .str [] => ops
  | _ => pushOp ops ⟨some v, attrOpt a⟩

/-- Loop body state of `encodeContent`: after the first line, each iteration
first inserts a newline carrying the previous line attributes, then the
segments of the current line; after the loop a final newline is inserted
when the last line attributes are non-empty. -/
def encodeAux (ops : List Op) (lineAttrs : Attrs) (lines : List Line) : List Op :=
  match lines with
  | [] => if lineAttrs.isEmpty then ops else insertOp ops (.str ['\n']) lineAttrs
  | l :: ls =>
    let ops1 := insertOp ops (.str ['\n']) lineAttrs
    let ops2 := l.segments.foldl (fun o s => insertOp o s.insert s.attributes) ops1
    encodeAux ops2 l.attributes ls

/-- Embedding of `encodeContent` (src/src/quill/index.tsx lines 65-77). -/
def encodeContent (lines : List Line) : List Op :=
  match lines with
  | [] => []
  | l :: ls =>
    let ops0 := l.segments.foldl (fun o s => insertOp o s.insert s.attributes) []
    encodeAux ops0 l.attributes ls

/-- JS `s.split(String.fromCharCode 10)` on a char list. -/
def splitOnNl : List Char → List (List Char)
  | [] => [[]]
  | c :: cs =>
    if c = '\n' then [] :: splitOnNl cs
    else
      match splitOnNl cs with
      | [] => [[c]]
      | p :: ps => (c :: p) :: ps

/-- Helper for the split branch of `decodeContent`: each part after the first
closes the line under construction (with empty block attributes) and starts a
fresh one holding that part as its only segment. -/
def closeParts (result : List Line) (segs : List Segment) (a : Attrs) :
    List (List Char) → List Line × List Segment
  | [] => (result, segs)
  | p :: ps => closeParts (result ++ [⟨segs, []⟩]) [⟨.str p, a⟩] a ps

/-- One step of the `content.forEach` loop of `decodeContent`
(src/src/quill/index.tsx lines 83-100).  State is (result, segments). -/
def decodeStep (st : List Line × List Segment) (op : Op) : List Line × List Segment :=
  let result := st.1
  let segments := st.2
  let a := op.attributes.getD []
  match op.insert with
  | some (.str s) =>
    if s = [] then (result, segments)
    else if s.all (fun c => c = '\n') then
      (result ++ ⟨segments, a⟩ :: List.replicate (s.length - 1) ⟨[], a⟩, [])
    else
      match splitOnNl s with
      | [] => (result, segments)
      | p :: ps => closeParts result (segments ++ [⟨.str p, a⟩]) a ps
  | some (.embed e) => (result, segments ++ [⟨.embed e, a⟩])
  | none => (result, segments ++ [⟨.str [], a⟩])

/-- Final step of `decodeContent`: a non-empty pending segment list becomes a
last line with empty block attributes. -/
def decodeFinish (st : List Line × List Segment) : List Line :=
  if st.2 = [] then st.1 else st.1 ++ [⟨st.2, []⟩]

/-- Embedding of `decodeContent` (src/src/quill/index.tsx lines 79-103); the
argument is `none` when the delta is absent. -/
def decodeContent (content : Option (List Op)) : List Line :=
  match content with
  | none => []
  | some ops => decodeFinish (ops.foldl decodeStep ([], []))

/-- Lodash `_.isEmpty` of a segment insert: empty string or empty object. -/
def insertIsEmpty : InsertVal → Bool
  | .str t => t.isEmpty
  | .embed d => d.isEmpty

/-- A line all of whose segments have empty inserts and whose block
attributes are empty (the predicate of `_removeEmptyLines`). -/
def isEmptyLine (l : Line) : Bool :=
  l.segments.all (fun s => insertIsEmpty s.insert) && l.attributes.isEmpty

/-- Embedding of `_removeEmptyLines` (line 105): lodash `dropRightWhile`
drops from the right end while the predicate holds. -/
def _removeEmptyLines (lines : List Line) : List Line :=
  ((lines.reverse).dropWhile isEmptyLine).reverse

/-! ### Canonical inputs and the flat form of the encoder

`encodeContent` drops empty string segments and merges adjacent string
inserts with equal attributes (through `pushOp`), which `decodeContent`
cannot always undo.  `canonical` carves out the inputs on which no merge
and no drop happens, so that the encoder output is the literal
interleaving `flat` of segment ops and attributed newline ops. -/

/-- The op produced for one segment. -/
def segOp (s : Segment) : Op := ⟨some s.insert, attrOpt s.attributes⟩

/-- The op produced for a newline closing a line with attributes `a`. -/
def nlOp (a : Attrs) : Op := ⟨some (.str ['\n']), attrOpt a⟩

/-- Ops of the segments of one line, in order. -/
def lineOps (l : Line) : List Op := l.segments.map segOp

/-- Tail of the merge-free encoder output: a newline carrying the previous
line attributes before each further line, and a final newline exactly when
the last line attributes are non-empty. -/
def flatAux : Attrs → List Line → List Op
  | a, [] => if a = [] then [] else [nlOp a]
  | a, l :: ls => nlOp a :: (lineOps l ++ flatAux l.attributes ls)

/-- Merge-free encoder output. -/
def flat : List Line → List Op
  | [] => []
  | l :: ls => lineOps l ++ flatAux l.attributes ls

/-- Whether a segment holds a string run. -/
def segIsStr (s : Segment) : Bool :=
  match s.insert with
  | .str _ => true
  | _ => false

/-- A segment whose encoding survives and decodes to itself: an embed, or a
non-empty text run without a newline character. -/
def segOk (s : Segment) : Bool :=
  match s.insert with
  | .str t => !t.isEmpty && !t.contains '\n'
  | .embed _ => true

/-- No two adjacent segments of a line are string runs with equal
attributes (such runs would be merged into one op by `pushOp`). -/
def chainOk : List Segment → Bool
  | s1 :: s2 :: rest =>
    !(segIsStr s1 && segIsStr s2 && decide (s1.attributes = s2.attributes)) &&
      chainOk (s2 :: rest)
  | _ => true

/-- The last segment of the line, when a string run, does not carry the
line attributes (otherwise the closing newline would merge into it). -/
def backOk (l : Line) : Bool :=
  match l.segments.getLast? with
  | some s =>
    match s.insert with
    | .str _ => !decide (s.attributes = l.attributes)
    | _ => true
  | none => true

/-- The first segment of a line, when a string run, does not carry the
preceding line attributes `a` (otherwise it would merge into the newline). -/
def headSegOk (a : Attrs) (l : Line) : Bool :=
  match l.segments.head? with
  | some s =>
    match s.insert with
    | .str _ => !decide (s.attributes = a)
    | _ => true
  | none => true

/-- All segments of a line are in canonical form. -/
def lineOk (l : Line) : Bool :=
  l.segments.all segOk && chainOk l.segments

/-- `backOk` for the line, demanded only when its closing newline is
actually emitted: always when further lines follow, and for the last line
only when its attributes are non-empty. -/
def lastBackOk (l : Line) (ls : List Line) : Bool :=
  match ls with
  | [] => l.attributes.isEmpty || backOk l
  | _ :: _ => backOk l

/-- Canonicality of the tail of the document, relative to the attributes
`a` of the line just before it. -/
def canonAuxA : Attrs → List Line → Bool
  | _, [] => true
  | a, l :: ls =>
    headSegOk a l && (!l.segments.isEmpty || !decide (l.attributes = a)) &&
      lineOk l && lastBackOk l ls && canonAuxA l.attributes ls

/-- Canonical documents: every segment survives encoding unchanged and no
two adjacent ops of the encoder output merge. -/
def canonical : List Line → Bool
  | [] => true
  | l :: ls => lineOk l && lastBackOk l ls && canonAuxA l.attributes ls

/-! ### Basic lemmas -/

theorem attrOpt_inj {a b : Attrs} (h : attrOpt a = attrOpt b) : a = b := by
  by_cases ha : a = [] <;> by_cases hb : b = [] <;>
    simp [attrOpt, ha, hb] at h <;> simp [ha, hb, h]

theorem attrOpt_getD (a : Attrs) : (attrOpt a).getD [] = a := by
  by_cases ha : a = [] <;> simp [attrOpt, ha]

/-- No merge happens when `op` is pushed after a delta whose last op is
`last?`: the two are not both string inserts with equal attributes. -/
def NoMerge (last? : Option Op) (op : Op) : Prop :=
  ∀ lastOp s1 s2, last? = some lastOp → lastOp.insert = some (.str s1) →
    op.insert = some (.str s2) → lastOp.attributes ≠ op.attributes

theorem pushOp_append (ops : List Op) (op : Op) (h : NoMerge ops.getLast? op) :
    pushOp ops op = ops ++ [op] := by
  unfold pushOp
  split
  · rfl
  · rename_i lastOp hl
    split
    · rename_i s1 s2 h1 h2
      exact if_neg (h lastOp s1 s2 hl h1 h2)
    · rfl

theorem insertOp_append (ops : List Op) (v : InsertVal) (a : Attrs)
    (hv : ∀ t, v = .str t → t ≠ []) (h : NoMerge ops.getLast? ⟨some v, attrOpt a⟩) :
    insertOp ops v a = ops ++ [⟨some v, attrOpt a⟩] := by
  unfold insertOp
  cases v with
  | embed d => exact pushOp_append ops _ h
  | str t =>
    cases t with
    | nil => exact absurd rfl (hv [] rfl)
    | cons c cs => exact pushOp_append ops _ h

/-- Head-compatibility of a segment list with the op preceding it. -/
def HeadOk (last? : Option Op) : List Segment → Prop
  | [] => True
  | s :: _ => NoMerge last? (segOp s)

theorem foldl_insert_append (segs : List Segment) : ∀ ops : List Op,
    segs.all segOk = true → chainOk segs = true → HeadOk ops.getLast? segs →
    segs.foldl (fun o s => insertOp o s.insert s.attributes) ops = ops ++ segs.map segOp := by
  induction segs with
  | nil => intro ops _ _ _; simp
  | cons s rest ih =>
    intro ops hall hchain hhead
    simp only [List.all_cons, Bool.and_eq_true] at hall
    have hstep : insertOp ops s.insert s.attributes = ops ++ [segOp s] := by
      refine insertOp_append ops s.insert s.attributes ?_ hhead
      intro t hts htnil
      subst htnil
      have h1 := hall.1
      simp [segOk, hts] at h1
    have hchain2 : chainOk rest = true := by
      cases rest with
      | nil => rfl
      | cons s2 r2 =>
        simp only [chainOk, Bool.and_eq_true] at hchain
        exact hchain.2
    have hhead2 : HeadOk (ops ++ [segOp s]).getLast? rest := by
      cases rest with
      | nil => trivial
      | cons s2 r2 =>
        show NoMerge (ops ++ [segOp s]).getLast? (segOp s2)
        rw [List.getLast?_concat]
        intro lastOp t1 t2 heq h1 h2 hattr
        have hls : lastOp = segOp s := (Option.some.inj heq).symm
        subst hls
        simp only [segOp] at h1 h2 hattr
        have hs1 : s.insert = .str t1 := Option.some.inj h1
        have hs2 : s2.insert = .str t2 := Option.some.inj h2
        have heqa : s.attributes = s2.attributes := attrOpt_inj hattr
        simp only [chainOk, Bool.and_eq_true] at hchain
        have hfst := hchain.1
        simp [segIsStr, hs1, hs2, heqa] at hfst
    rw [List.foldl_cons, hstep, ih (ops ++ [segOp s]) hall.2 hchain2 hhead2]
    simp

theorem backOk_true_of_lastBackOk (l : Line) (ls2 : List Line)
    (hlb : lastBackOk l ls2 = true) (hg : ls2 ≠ [] ∨ l.attributes ≠ []) :
    backOk l = true := by
  cases ls2 with
  | cons _ _ => simpa [lastBackOk] using hlb
  | nil =>
    rcases hg with hg | hg
    · exact absurd rfl hg
    · have hie : l.attributes.isEmpty = false := by
        cases hA : l.attributes with
        | nil => exact absurd hA hg
        | cons _ _ => rfl
      simpa [lastBackOk, hie] using hlb

theorem backOk_getLast (l : Line) (s : Segment) (t : List Char)
    (hb : backOk l = true) (hgl : l.segments.getLast? = some s)
    (hstr : s.insert = .str t) : s.attributes ≠ l.attributes := by
  simp [backOk, hgl, hstr] at hb
  exact hb

/-- After the ops of a line whose last string segment does not carry `b`,
the newline op for `b` does not merge. -/
theorem noMerge_nl_after_line (pre : List Op) (l : Line) (b : Attrs)
    (hback : ∀ s t, l.segments.getLast? = some s → s.insert = .str t → s.attributes ≠ b)
    (hempty : l.segments = [] → NoMerge pre.getLast? (nlOp b)) :
    NoMerge (pre ++ lineOps l).getLast? (nlOp b) := by
  cases hs : l.segments with
  | nil =>
    have : lineOps l = [] := by simp [lineOps, hs]
    simpa [this] using hempty hs
  | cons s0 rest =>
    have hne : lineOps l ≠ [] := by simp [lineOps, hs]
    rw [List.getLast?_append_of_ne_nil pre hne]
    intro lastOp t1 t2 heq h1 h2 hattr
    rw [lineOps, List.getLast?_map] at heq
    obtain ⟨s, hgl, hso⟩ := Option.map_eq_some'.mp heq
    have hsi : s.insert = .str t1 := by
      have := h1
      rw [← hso] at this
      simpa [segOp] using this
    have hsa : s.attributes = b := by
      apply attrOpt_inj
      have := hattr
      rw [← hso] at this
      simpa [segOp, nlOp] using this
    exact hback s t1 hgl hsi hsa

/-- After a newline op for `a`, a first segment not carrying `a` does not
merge. -/
theorem headOk_after_nl (ops : List Op) (a : Attrs) (l : Line)
    (hh : headSegOk a l = true) : HeadOk (ops ++ [nlOp a]).getLast? l.segments := by
  cases hs : l.segments with
  | nil => trivial
  | cons s0 rest =>
    show NoMerge (ops ++ [nlOp a]).getLast? (segOp s0)
    rw [List.getLast?_concat]
    intro lastOp t1 t2 heq h1 h2 hattr
    have hl : lastOp = nlOp a := (Option.some.inj heq).symm
    subst hl
    have hs2 : s0.insert = .str t2 := by simpa [segOp] using h2
    have hEq : a = s0.attributes := attrOpt_inj (by simpa [segOp, nlOp] using hattr)
    simp [headSegOk, hs, hs2] at hh
    exact hh hEq.symm

theorem encodeAux_flat (ls : List Line) : ∀ (a : Attrs) (ops : List Op),
    canonAuxA a ls = true →
    ((ls ≠ [] ∨ a ≠ []) → NoMerge ops.getLast? (nlOp a)) →
    encodeAux ops a ls = ops ++ flatAux a ls := by
  induction ls with
  | nil =>
    intro a ops _ hlast
    by_cases ha : a = []
    · subst ha; simp [encodeAux, flatAux]
    · have hie : a.isEmpty = false := by
        cases hA : a with
        | nil => exact absurd hA ha
        | cons _ _ => rfl
      have h1 : insertOp ops (.str ['\n']) a = ops ++ [nlOp a] := by
        refine insertOp_append ops _ a ?_ (hlast (Or.inr ha))
        intro t ht
        injection ht with h2
        subst h2
        simp
      simp [encodeAux, flatAux, ha, hie, h1, nlOp]
  | cons l ls2 ih =>
    intro a ops hc hlast
    simp only [canonAuxA, Bool.and_eq_true, and_assoc] at hc
    obtain ⟨hh, hel, hlk, hlb, hrest⟩ := hc
    have hnm : NoMerge ops.getLast? (nlOp a) := hlast (Or.inl (by simp))
    have h1 : insertOp ops (.str ['\n']) a = ops ++ [nlOp a] := by
      refine insertOp_append ops _ a ?_ hnm
      intro t ht
      injection ht with h2
      subst h2
      simp
    have hlok : l.segments.all segOk = true ∧ chainOk l.segments = true := by
      simpa [lineOk, Bool.and_eq_true] using hlk
    have h2 : l.segments.foldl (fun o s => insertOp o s.insert s.attributes) (ops ++ [nlOp a]) =
        (ops ++ [nlOp a]) ++ lineOps l :=
      foldl_insert_append l.segments (ops ++ [nlOp a]) hlok.1 hlok.2 (headOk_after_nl ops a l hh)
    have hlast2 : (ls2 ≠ [] ∨ l.attributes ≠ []) →
        NoMerge ((ops ++ [nlOp a]) ++ lineOps l).getLast? (nlOp l.attributes) := by
      intro hg
      apply noMerge_nl_after_line
      · intro s t hgl hstr
        exact backOk_getLast l s t (backOk_true_of_lastBackOk l ls2 hlb hg) hgl hstr
      · intro hse
        rw [List.getLast?_concat]
        intro lastOp t1 t2 heq hi1 hi2 hattr
        have hl : lastOp = nlOp a := (Option.some.inj heq).symm
        subst hl
        have hEq : a = l.attributes := attrOpt_inj (by simpa [nlOp] using hattr)
        rw [hse] at hel
        simp at hel
        exact hel hEq.symm
    have hstep : encodeAux ops a (l :: ls2) =
        encodeAux (l.segments.foldl (fun o s => insertOp o s.insert s.attributes)
          (insertOp ops (.str ['\n']) a)) l.attributes ls2 := rfl
    rw [hstep, h1, h2, ih l.attributes ((ops ++ [nlOp a]) ++ lineOps l) hrest hlast2]
    simp [flatAux]

theorem encode_flat (x : List Line) (hc : canonical x = true) :
    encodeContent x = flat x := by
  cases x with
  | nil => rfl
  | cons l ls =>
    simp only [canonical, Bool.and_eq_true, and_assoc] at hc
    obtain ⟨hlk, hlb, haux⟩ := hc
    have hlok : l.segments.all segOk = true ∧ chainOk l.segments = true := by
      simpa [lineOk, Bool.and_eq_true] using hlk
    have hhead : HeadOk (([] : List Op)).getLast? l.segments := by
      cases hs : l.segments with
      | nil => trivial
      | cons s0 rest =>
        intro lastOp t1 t2 heq h1 h2 hattr
        simp at heq
    have h0 : l.segments.foldl (fun o s => insertOp o s.insert s.attributes) [] = lineOps l := by
      simpa using foldl_insert_append l.segments [] hlok.1 hlok.2 hhead
    have hlast : (ls ≠ [] ∨ l.attributes ≠ []) →
        NoMerge (lineOps l).getLast? (nlOp l.attributes) := by
      intro hg
      have := noMerge_nl_after_line [] l l.attributes
        (fun s t hgl hstr =>
          backOk_getLast l s t (backOk_true_of_lastBackOk l ls hlb hg) hgl hstr)
        (fun _ => by intro lastOp t1 t2 heq h1 h2 hattr; simp at heq)
      simpa using this
    have hstep : encodeContent (l :: ls) =
        encodeAux (l.segments.foldl (fun o s => insertOp o s.insert s.attributes) [])
          l.attributes ls := rfl
    rw [hstep, h0, encodeAux_flat ls l.attributes (lineOps l) haux hlast]
    rfl

/-! ### Decoding the flat form -/

theorem splitOnNl_no_nl (t : List Char) (h : t.contains '\n' = false) :
    splitOnNl t = [t] := by
  induction t with
  | nil => rfl
  | cons c cs ih =>
    simp only [List.contains_cons, Bool.or_eq_false_iff] at h
    have hc : ¬c = '\n' := by
      intro hEq
      subst hEq
      simp at h
    rw [splitOnNl, if_neg hc, ih h.2]

theorem not_all_nl (t : List Char) (hne : t ≠ []) (h : t.contains '\n' = false) :
    (t.all fun c => decide (c = '\n')) = false := by
  cases t with
  | nil => exact absurd rfl hne
  | cons c cs =>
    simp only [List.contains_cons, Bool.or_eq_false_iff] at h
    have hc : ¬c = '\n' := by
      intro hEq
      subst hEq
      simp at h
    simp [hc]

theorem decodeStep_seg (st : List Line × List Segment) (s : Segment)
    (h : segOk s = true) : decodeStep st (segOp s) = (st.1, st.2 ++ [s]) := by
  obtain ⟨ins, attrs⟩ := s
  cases ins with
  | embed e => simp [decodeStep, segOp, attrOpt_getD]
  | str t =>
    simp only [segOk] at h
    rw [Bool.and_eq_true, Bool.not_eq_true', Bool.not_eq_true'] at h
    have hne : t ≠ [] := by
      intro hEq
      rw [hEq] at h
      simp at h
    simp only [decodeStep, segOp, attrOpt_getD]
    rw [if_neg hne, if_neg (by simp [not_all_nl t hne h.2]),
      splitOnNl_no_nl t h.2]
    rfl

theorem foldl_decode_lineOps (segs : List Segment) : ∀ (R : List Line) (S : List Segment),
    segs.all segOk = true →
    List.foldl decodeStep (R, S) (segs.map segOp) = (R, S ++ segs) := by
  induction segs with
  | nil => intro R S _; simp
  | cons s rest ih =>
    intro R S hall
    simp only [List.all_cons, Bool.and_eq_true] at hall
    rw [List.map_cons, List.foldl_cons, decodeStep_seg (R, S) s hall.1,
      ih R (S ++ [s]) hall.2]
    simp

theorem decodeStep_nl (R : List Line) (S : List Segment) (a : Attrs) :
    decodeStep (R, S) (nlOp a) = (R ++ [⟨S, a⟩], []) := by
  simp [decodeStep, nlOp, attrOpt_getD]

/-- The last line, if any, is not segmentless with empty attributes (such a
line would be lost by encoding). -/
def lastOkD (ls : List Line) : Bool :=
  match ls.getLast? with
  | none => true
  | some l => !(l.segments.isEmpty && l.attributes.isEmpty)

theorem decode_flatAux (ls : List Line) : ∀ (a : Attrs) (R : List Line) (S : List Segment),
    (ls.all fun l => l.segments.all segOk) = true →
    lastOkD ls = true →
    ((ls = [] ∧ a = []) → S ≠ []) →
    decodeFinish (List.foldl decodeStep (R, S) (flatAux a ls)) = R ++ ⟨S, a⟩ :: ls := by
  induction ls with
  | nil =>
    intro a R S _ _ hS
    by_cases ha : a = []
    · subst ha
      have h0 : flatAux ([] : Attrs) ([] : List Line) = [] := rfl
      rw [h0, List.foldl_nil, decodeFinish, if_neg (hS ⟨rfl, rfl⟩)]
    · have h0 : flatAux a ([] : List Line) = [nlOp a] := by
        rw [flatAux, if_neg ha]
      rw [h0, List.foldl_cons, List.foldl_nil, decodeStep_nl]
      rfl
  | cons l ls2 ih =>
    intro a R S hall hlast hS
    simp only [List.all_cons, Bool.and_eq_true] at hall
    have hfa : flatAux a (l :: ls2) = nlOp a :: (lineOps l ++ flatAux l.attributes ls2) := rfl
    rw [hfa, List.foldl_cons, decodeStep_nl, List.foldl_append, lineOps]
    have h3 := foldl_decode_lineOps l.segments (R ++ [(⟨S, a⟩ : Line)]) [] hall.1
    rw [h3]
    have hlast2 : lastOkD ls2 = true := by
      cases ls2 with
      | nil => rfl
      | cons m ms =>
        have : (l :: m :: ms).getLast? = (m :: ms).getLast? := List.getLast?_cons_cons
        simpa [lastOkD, this] using hlast
    have hS2 : (ls2 = [] ∧ l.attributes = []) → l.segments ≠ [] := by
      rintro ⟨h1, h2⟩ hseg
      subst h1
      have : (l :: ([] : List Line)).getLast? = some l := rfl
      simp [lastOkD, this, hseg, h2] at hlast
    have h4 := ih l.attributes (R ++ [(⟨S, a⟩ : Line)]) l.segments hall.2 hlast2 hS2
    rw [List.nil_append, h4]
    simp

theorem decode_flat (x : List Line)
    (hall : (x.all fun l => l.segments.all segOk) = true)
    (hlast : lastOkD x = true) :
    decodeContent (some (flat x)) = x := by
  cases x with
  | nil => rfl
  | cons l ls =>
    simp only [List.all_cons, Bool.and_eq_true] at hall
    have hfl : flat (l :: ls) = lineOps l ++ flatAux l.attributes ls := rfl
    rw [decodeContent, hfl, List.foldl_append, lineOps,
      foldl_decode_lineOps l.segments [] [] hall.1]
    have hlast2 : lastOkD ls = true := by
      cases ls with
      | nil => rfl
      | cons m ms =>
        have : (l :: m :: ms).getLast? = (m :: ms).getLast? := List.getLast?_cons_cons
        simpa [lastOkD, this] using hlast
    have hS : (ls = [] ∧ l.attributes = []) → l.segments ≠ [] := by
      rintro ⟨h1, h2⟩ hseg
      subst h1
      have : (l :: ([] : List Line)).getLast? = some l := rfl
      simp [lastOkD, this, hseg, h2] at hlast
    have h4 := decode_flatAux ls l.attributes [] l.segments hall.2 hlast2 hS
    rw [List.nil_append, h4]
    simp

theorem dropWhile_eq_self_head (p : Line → Bool) (l : Line) (rest : List Line)
    (h : List.dropWhile p (l :: rest) = l :: rest) : p l = false := by
  by_contra hp
  rw [Bool.not_eq_false] at hp
  rw [List.dropWhile_cons, if_pos hp] at h
  have hlen : (List.dropWhile p rest).length ≤ rest.length :=
    (List.dropWhile_sublist _).length_le
  rw [h] at hlen
  simp at hlen

theorem lastOkD_of_fix (x : List Line) (h : _removeEmptyLines x = x) :
    lastOkD x = true := by
  unfold lastOkD
  cases hl : x.getLast? with
  | none => rfl
  | some l =>
    rw [Bool.not_eq_true']
    by_contra hc
    rw [Bool.not_eq_false, Bool.and_eq_true] at hc
    have hempty : isEmptyLine l = true := by
      have hseg : l.segments = [] := by
        cases hs : l.segments with
        | nil => rfl
        | cons _ _ => rw [hs] at hc; simp at hc
      simp [isEmptyLine, hseg, hc.2]
    have hrev : x.reverse.head? = some l := by rw [List.head?_reverse, hl]
    have hfix : List.dropWhile isEmptyLine x.reverse = x.reverse := by
      have := congrArg List.reverse h
      rwa [_removeEmptyLines, List.reverse_reverse] at this
    cases hx : x.reverse with
    | nil => rw [hx] at hrev; simp at hrev
    | cons m ms =>
      rw [hx] at hrev hfix
      have hm : m = l := by simpa using hrev
      subst hm
      rw [dropWhile_eq_self_head isEmptyLine m ms hfix] at hempty
      simp at hempty

theorem canonAuxA_all_segOk (ls : List Line) : ∀ a : Attrs, canonAuxA a ls = true →
    (ls.all fun l => l.segments.all segOk) = true := by
  induction ls with
  | nil => intro a _; rfl
  | cons l ls2 ih =>
    intro a hc
    simp only [canonAuxA, Bool.and_eq_true, and_assoc] at hc
    obtain ⟨_, _, hlk, _, hrest⟩ := hc
    have : l.segments.all segOk = true := by
      rw [lineOk, Bool.and_eq_true] at hlk
      exact hlk.1
    simp [this, ih l.attributes hrest]

theorem canonical_all_segOk (x : List Line) (hc : canonical x = true) :
    (x.all fun l => l.segments.all segOk) = true := by
  cases x with
  | nil => rfl
  | cons l ls =>
    simp only [canonical, Bool.and_eq_true, and_assoc] at hc
    obtain ⟨hlk, _, haux⟩ := hc
    have : l.segments.all segOk = true := by
      rw [lineOk, Bool.and_eq_true] at hlk
      exact hlk.1
    simp [this, canonAuxA_all_segOk ls l.attributes haux]

/-! ### Claim C1: round trip of the content codec -/

/-- C1 (amended): decoding the encoding of a Line list is the identity on
canonical inputs with no trailing fully-empty lines.  `canonical` demands
that every segment is an embed or a non-empty newline-free text run and
that no two adjacent ops of the encoded delta merge: adjacent string
segments of a line differ in attributes, a string segment adjacent to a
line-closing newline does not carry that line's block attributes, and a
segmentless line differs in attributes from its predecessor.  Without
these conditions the claim is false, because `Delta.insert` drops empty
strings and `Delta.push` merges equal-attribute string inserts, which the
decoder cannot undo (see the counterexample theorem). -/
theorem decode_encode_roundtrip (x : List Line)
    (hc : canonical x = true) (ht : _removeEmptyLines x = x) :
    decodeContent (some (encodeContent x)) = x := by
  rw [encode_flat x hc]
  exact decode_flat x (canonical_all_segOk x hc) (lastOkD_of_fix x ht)

/-- C1 counterexample: a plain text line followed by an image line has no
trailing empty lines, yet decoding its encoding differs from the input:
the line-closing newline merges into the text run "a", and splitting
"a\n" back leaves a spurious empty text segment in front of the image. -/
theorem decode_encode_roundtrip_cex :
    _removeEmptyLines
        [⟨[⟨.str ['a'], []⟩], []⟩, ⟨[⟨.embed [("image", "u")], []⟩], []⟩] =
      [⟨[⟨.str ['a'], []⟩], []⟩, ⟨[⟨.embed [("image", "u")], []⟩], []⟩] ∧
    decodeContent (some (encodeContent
        [⟨[⟨.str ['a'], []⟩], []⟩, ⟨[⟨.embed [("image", "u")], []⟩], []⟩])) ≠
      [⟨[⟨.str ['a'], []⟩], []⟩, ⟨[⟨.embed [("image", "u")], []⟩], []⟩] := by
  exact ⟨by decide, by decide⟩

/-- C1 witness: the round-trip theorem applied to a concrete canonical
bold-run header line. -/
theorem decode_encode_roundtrip_witness :
    canonical [⟨[⟨.str ['h', 'i'], [("b", "1")]⟩], [("h", "2")]⟩] = true ∧
    _removeEmptyLines [⟨[⟨.str ['h', 'i'], [("b", "1")]⟩], [("h", "2")]⟩] =
      [⟨[⟨.str ['h', 'i'], [("b", "1")]⟩], [("h", "2")]⟩] ∧
    decodeContent (some (encodeContent
        [⟨[⟨.str ['h', 'i'], [("b", "1")]⟩], [("h", "2")]⟩])) =
      [⟨[⟨.str ['h', 'i'], [("b", "1")]⟩], [("h", "2")]⟩] :=
  ⟨by decide, by decide, decode_encode_roundtrip _ (by decide) (by decide)⟩

/-! ### Claim C2: trailing fully-empty lines -/

/-- No trailing fully-empty line. -/
def noTrailingEmpty (ls : List Line) : Bool :=
  match ls.getLast? with
  | none => true
  | some l => !isEmptyLine l

theorem head?_dropWhile_false (p : Line → Bool) :
    ∀ (l : List Line) (x : Line), (l.dropWhile p).head? = some x → p x = false := by
  intro l
  induction l with
  | nil => intro x h; simp at h
  | cons c t ih =>
    intro x h
    rw [List.dropWhile_cons] at h
    by_cases hp : p c = true
    · rw [if_pos hp] at h
      exact ih x h
    · rw [if_neg hp] at h
      have : c = x := by simpa using h
      subst this
      exact Bool.not_eq_true _ ▸ hp

/-- C2 (amended): the document surfaced through the text-change
propagation path, `_removeEmptyLines (decodeContent d)`, never ends in a
line whose segments are all empty inserts and whose block attributes are
empty.  `decodeContent` alone does not guarantee this (see the
counterexample theorem), and the `replaceAssets` callback path invokes
`decodeContent` without `_removeEmptyLines`. -/
theorem removeEmptyLines_decode_noTrailing (d : Option (List Op)) :
    noTrailingEmpty (_removeEmptyLines (decodeContent d)) = true := by
  unfold noTrailingEmpty _removeEmptyLines
  cases hl : (((decodeContent d).reverse.dropWhile isEmptyLine).reverse).getLast? with
  | none => rfl
  | some x =>
    rw [List.getLast?_reverse] at hl
    show (!isEmptyLine x) = true
    rw [head?_dropWhile_false isEmptyLine _ x hl]
    rfl

/-- C2 counterexample: `decodeContent` itself can produce a trailing
fully-empty line, here from a delta holding a single bare newline. -/
theorem decode_noTrailing_cex :
    decodeContent (some [⟨some (.str ['\n']), none⟩]) = [⟨[], []⟩] ∧
    noTrailingEmpty (decodeContent (some [⟨some (.str ['\n']), none⟩])) = false := by
  exact ⟨by decide, by decide⟩

/-! ### Claim C7: structure of the encoder output

At the op level, the newline closing a line need not be its own insert:
`pushOp` may merge it into an adjacent equal-attribute text run, and for
the last line with empty attributes no newline is emitted at all.  The
faithful statement lives on the character stream of the delta, where each
atom carries its op attribute option. -/

/-- An atom of a document character stream: one text character or one embed. -/
inductive Item where
  | ch (c : Char)
  | embed (data : List (String × String))
deriving DecidableEq

/-- Character stream of one op, atoms tagged with the op attribute option. -/
def opChars (op : Op) : List (Item × Option Attrs) :=
  match op.insert with
  | some (.str s) => s.map fun c => (Item.ch c, op.attributes)
  | some (.embed e) => [(Item.embed e, op.attributes)]
  | none => []

/-- Character stream of a delta. -/
def docChars (ops : List Op) : List (Item × Option Attrs) :=
  (ops.map opChars).flatten

/-- Character stream of the segments of one line. -/
def segsChars (segs : List Segment) : List (Item × Option Attrs) :=
  (segs.map fun s => opChars (segOp s)).flatten

/-- Character stream contributed after the first line: a newline tagged
with the previous line attributes before each further line, and a final
newline exactly when the last line attributes are non-empty. -/
def linesCharsAux : Attrs → List Line → List (Item × Option Attrs)
  | a, [] => if a = [] then [] else [(Item.ch '\n', attrOpt a)]
  | a, l :: ls => (Item.ch '\n', attrOpt a) :: (segsChars l.segments ++ linesCharsAux l.attributes ls)

/-- Expected character stream of the encoded document. -/
def linesChars : List Line → List (Item × Option Attrs)
  | [] => []
  | l :: ls => segsChars l.segments ++ linesCharsAux l.attributes ls

theorem docChars_append (a b : List Op) : docChars (a ++ b) = docChars a ++ docChars b := by
  simp [docChars]

theorem docChars_pushOp (ops : List Op) (op : Op) :
    docChars (pushOp ops op) = docChars ops ++ opChars op := by
  unfold pushOp
  split
  · rw [docChars_append]
    simp [docChars]
  · rename_i lastOp hl
    split
    · rename_i s1 s2 h1 h2
      by_cases hattr : lastOp.attributes = op.attributes
      · rw [if_pos hattr]
        have hne : ops ≠ [] := by
          intro hEq
          rw [hEq] at hl
          simp at hl
        have hlast : ops.getLast hne = lastOp := by
          have := List.getLast?_eq_getLast ops hne
          rw [hl] at this
          exact (Option.some.inj this).symm
        have hsplit : ops.dropLast ++ [lastOp] = ops := by
          rw [← hlast]
          exact List.dropLast_append_getLast hne
        calc docChars (ops.dropLast ++ [⟨some (.str (s1 ++ s2)), op.attributes⟩])
            = docChars ops.dropLast ++ opChars ⟨some (.str (s1 ++ s2)), op.attributes⟩ := by
              rw [docChars_append]; simp [docChars]
          _ = docChars ops.dropLast ++ (opChars lastOp ++ opChars op) := by
              simp [opChars, h1, h2, hattr]
          _ = docChars ops ++ opChars op := by
              rw [← hsplit, docChars_append]
              simp [docChars]
      · rw [if_neg hattr, docChars_append]
        simp [docChars]
    · rw [docChars_append]
      simp [docChars]

theorem docChars_insertOp (ops : List Op) (v : InsertVal) (a : Attrs) :
    docChars (insertOp ops v a) = docChars ops ++ opChars ⟨some v, attrOpt a⟩ := by
  cases v with
  | embed e => exact docChars_pushOp ops _
  | str t =>
    cases t with
    | nil => simp [insertOp, opChars]
    | cons c cs => exact docChars_pushOp ops _

theorem docChars_foldl_insert (segs : List Segment) : ∀ ops : List Op,
    docChars (segs.foldl (fun o s => insertOp o s.insert s.attributes) ops) =
      docChars ops ++ segsChars segs := by
  induction segs with
  | nil => intro ops; simp [segsChars]
  | cons s rest ih =>
    intro ops
    rw [List.foldl_cons, ih, docChars_insertOp]
    simp [segsChars, segOp]

theorem docChars_encodeAux (ls : List Line) : ∀ (a : Attrs) (ops : List Op),
    docChars (encodeAux ops a ls) = docChars ops ++ linesCharsAux a ls := by
  induction ls with
  | nil =>
    intro a ops
    by_cases ha : a = []
    · subst ha
      simp [encodeAux, linesCharsAux]
    · have hie : a.isEmpty = false := by
        cases hA : a with
        | nil => exact absurd hA ha
        | cons _ _ => rfl
      have h1 : encodeAux ops a [] = insertOp ops (.str ['\n']) a := by
        simp [encodeAux, hie]
      rw [h1, docChars_insertOp]
      simp [linesCharsAux, ha, opChars]
  | cons l ls2 ih =>
    intro a ops
    have hstep : encodeAux ops a (l :: ls2) =
        encodeAux (l.segments.foldl (fun o s => insertOp o s.insert s.attributes)
          (insertOp ops (.str ['\n']) a)) l.attributes ls2 := rfl
    rw [hstep, ih, docChars_foldl_insert, docChars_insertOp]
    simp [linesCharsAux, opChars]

/-- C7 (amended): in the character stream of `encodeContent lines`, each
line's segment runs are followed by a newline character tagged with that
line's block attributes — for every line except the last, whose newline
is present exactly when its attributes are non-empty.  At the op level
the newline need not be a separate insert, since `pushOp` merges
equal-attribute string inserts (see the counterexample theorem). -/
theorem encode_char_structure (lines : List Line) :
    docChars (encodeContent lines) = linesChars lines := by
  cases lines with
  | nil => rfl
  | cons l ls =>
    have hstep : encodeContent (l :: ls) =
        encodeAux (l.segments.foldl (fun o s => insertOp o s.insert s.attributes) [])
          l.attributes ls := rfl
    rw [hstep, docChars_encodeAux, docChars_foldl_insert]
    rfl

/-- Whether an op carries a newline character. -/
def opHasNewline (op : Op) : Bool :=
  match op.insert with
  | some (.str s) => s.contains '\n'
  | _ => false

/-- C7 counterexample: the encoding of one plain line contains no newline
insert at all, and for two plain lines the newline is merged into a single
three-character op rather than closing line 0 as its own insert. -/
theorem encode_newline_per_line_cex :
    encodeContent [⟨[⟨.str ['a'], []⟩], []⟩] = [⟨some (.str ['a']), none⟩] ∧
    (encodeContent [⟨[⟨.str ['a'], []⟩], []⟩]).filter opHasNewline = [] ∧
    encodeContent [⟨[⟨.str ['a'], []⟩], []⟩, ⟨[⟨.str ['b'], []⟩], []⟩] =
      [⟨some (.str ['a', '\n', 'b']), none⟩] := by
  exact ⟨by decide, by decide, by decide⟩

/-! ### Claim C9: attribute defaulting in the decoder -/

/-- Replacing an absent attributes field by the present empty map. -/
def normAttrs (op : Op) : Op := ⟨op.insert, some (op.attributes.getD [])⟩

theorem decodeStep_normAttrs (st : List Line × List Segment) (op : Op) :
    decodeStep st (normAttrs op) = decodeStep st op := by
  obtain ⟨ins, attrs⟩ := op
  have hgd : (some ((attrs : Option Attrs).getD [])).getD [] = attrs.getD [] := by
    cases attrs <;> rfl
  cases ins with
  | none => simp [decodeStep, normAttrs, hgd]
  | some v => cases v <;> simp [decodeStep, normAttrs, hgd]

/-- C9: `decodeContent` of an absent delta is the empty document; ops
lacking an attributes field behave exactly as ops carrying the empty map,
so every decoded line and segment carries a defined attribute map (the
empty one when the op had none, as the concrete middle conjunct shows). -/
theorem decode_attr_defaulting :
    decodeContent none = [] ∧
    decodeContent (some [⟨some (.str ['a']), none⟩]) = [⟨[⟨.str ['a'], []⟩], []⟩] ∧
    ∀ ops : List Op, decodeContent (some (ops.map normAttrs)) = decodeContent (some ops) := by
  refine ⟨rfl, by decide, ?_⟩
  intro ops
  have h : ∀ st, List.foldl decodeStep st (ops.map normAttrs) = List.foldl decodeStep st ops := by
    induction ops with
    | nil => intro st; rfl
    | cons op rest ih =>
      intro st
      rw [List.map_cons, List.foldl_cons, List.foldl_cons, decodeStep_normAttrs, ih]
  simp [decodeContent, h]

/-! ### Claims C4, C5, C10: asset reference rewriting

`replaceAssets` (src/src/quill/index.tsx lines 173-191) maps over the
encoded content: an op embedding an image whose URI maps to a truthy (in
particular non-empty) replacement is rewritten to that replacement, every
other op is returned unchanged, and when no op was rewritten the method
returns without invoking the change callback.  The returned value below is
the argument of the single change callback invocation, or `none` when the
callback is not invoked. -/

/-- The `image` field of an embed op, when it is a string
(`_.isString(op.insert.image)` after the string/nil guards, lines 178-179). -/
def opImage (op : Op) : Option String :=
  match op.insert with
  | some (.embed data) => data.lookup "image"
  | _ => none

/-- The truthy replacement for a URI: `assets[uri]` when present and not
the empty string (`if (replace)`, lines 180-181). -/
def truthyLookup (assets : List (String × String)) (uri : String) : Option String :=
  match assets.lookup uri with
  | some r => if r = "" then none else some r
  | none => none

/-- The replacement URI the per-op rewrite of `replaceAssets` applies, or
`none` when the op is returned unchanged (lines 177-187). -/
def assetHit (assets : List (String × String)) (op : Op) : Option String :=
  match opImage op with
  | some uri => truthyLookup assets uri
  | none => none

/-- Whether `replaceAssets` rewrites this op (the condition under which
the source sets `isChanged`). -/
def imageMatch (assets : List (String × String)) (op : Op) : Bool :=
  (assetHit assets op).isSome

/-- The per-op rewrite of `replaceAssets`: `{ ...op, insert: { image: replace } }`
on a hit, the op itself otherwise. -/
def replaceOp (assets : List (String × String)) (op : Op) : Op :=
  match assetHit assets op with
  | some r => ⟨some (.embed [("image", r)]), op.attributes⟩
  | none => op

/-- Embedding of `replaceAssets`: the source computes the map and an
`isChanged` flag in one pass; the flag equals `any imageMatch`.  The
result is the argument of the change callback, `none` when the callback
is not invoked. -/
def replaceAssets (content : List Op) (assets : List (String × String)) : Option (List Line) :=
  if content.any (imageMatch assets) then
    some (decodeContent (some (content.map (replaceOp assets))))
  else none

theorem assetHit_some (assets : List (String × String)) (op : Op) (r : String)
    (h : assetHit assets op = some r) :
    ∃ data uri, op.insert = some (.embed data) ∧ data.lookup "image" = some uri ∧
      assets.lookup uri = some r ∧ r ≠ "" := by
  unfold assetHit at h
  cases hoi : opImage op with
  | none => rw [hoi] at h; exact absurd h (by simp)
  | some uri =>
    rw [hoi] at h
    have h2 : truthyLookup assets uri = some r := h
    unfold truthyLookup at h2
    cases hal : assets.lookup uri with
    | none => rw [hal] at h2; exact absurd h2 (by simp)
    | some r0 =>
      rw [hal] at h2
      have h3 : (if r0 = "" then none else some r0) = some r := h2
      by_cases hr0 : r0 = ""
      · rw [if_pos hr0] at h3
        exact absurd h3 (by simp)
      · rw [if_neg hr0] at h3
        have hrr : r0 = r := Option.some.inj h3
        subst hrr
        unfold opImage at hoi
        cases hins : op.insert with
        | none => rw [hins] at hoi; exact absurd hoi (by simp)
        | some v =>
          cases v with
          | str s => rw [hins] at hoi; exact absurd hoi (by simp)
          | embed data =>
            rw [hins] at hoi
            exact ⟨data, uri, rfl, hoi, hal, hr0⟩

theorem replaceOp_of_not_match (assets : List (String × String)) (op : Op)
    (h : imageMatch assets op = false) : replaceOp assets op = op := by
  unfold imageMatch at h
  unfold replaceOp
  cases ha : assetHit assets op with
  | none => rfl
  | some r => rw [ha] at h; exact absurd h (by simp)

theorem replaceOp_of_match (assets : List (String × String)) (op : Op)
    (h : imageMatch assets op = true) :
    ∃ data uri r, op.insert = some (.embed data) ∧ data.lookup "image" = some uri ∧
      assets.lookup uri = some r ∧ r ≠ "" ∧
      replaceOp assets op = ⟨some (.embed [("image", r)]), op.attributes⟩ := by
  unfold imageMatch at h
  cases ha : assetHit assets op with
  | none => rw [ha] at h; exact absurd h (by simp)
  | some r =>
    obtain ⟨data, uri, hins, hu, hal, hr⟩ := assetHit_some assets op r ha
    refine ⟨data, uri, r, hins, hu, hal, hr, ?_⟩
    unfold replaceOp
    rw [ha]

/-- C4: when some op matches, the callback is invoked exactly once, with
the decoding of a delta of the same length in which every matching image
op is rewritten to its mapped URI and every other op is unchanged. -/
theorem replaceAssets_frame (content : List Op) (assets : List (String × String))
    (h : content.any (imageMatch assets) = true) :
    replaceAssets content assets =
      some (decodeContent (some (content.map (replaceOp assets)))) ∧
    (content.map (replaceOp assets)).length = content.length ∧
    ∀ op ∈ content,
      (imageMatch assets op = false → replaceOp assets op = op) ∧
      (imageMatch assets op = true → ∃ data uri r,
        op.insert = some (.embed data) ∧ data.lookup "image" = some uri ∧
        assets.lookup uri = some r ∧ r ≠ "" ∧
        replaceOp assets op = ⟨some (.embed [("image", r)]), op.attributes⟩) := by
  refine ⟨?_, by simp, ?_⟩
  · unfold replaceAssets
    rw [if_pos h]
  · intro op _
    exact ⟨replaceOp_of_not_match assets op, replaceOp_of_match assets op⟩

/-- C4 witness: one image op rewritten from "u" to "v", the text op kept. -/
theorem replaceAssets_frame_witness :
    ([⟨some (.embed [("image", "u")]), none⟩, ⟨some (.str ['a']), none⟩] : List Op).any
      (imageMatch [("u", "v")]) = true ∧
    replaceAssets [⟨some (.embed [("image", "u")]), none⟩, ⟨some (.str ['a']), none⟩]
        [("u", "v")] =
      some [⟨[⟨.embed [("image", "v")], []⟩, ⟨.str ['a'], []⟩], []⟩] :=
  ⟨by decide, ((replaceAssets_frame _ _ (by decide)).1).trans (by decide)⟩

/-- C5: when no op matches, the callback is not invoked and the mapped
content is unchanged op for op. -/
theorem replaceAssets_noMatch (content : List Op) (assets : List (String × String))
    (h : content.any (imageMatch assets) = false) :
    replaceAssets content assets = none ∧ content.map (replaceOp assets) = content := by
  constructor
  · simp [replaceAssets, h]
  · have hall := List.any_eq_false.mp h
    have hid : ∀ op ∈ content, replaceOp assets op = op := by
      intro op hop
      exact replaceOp_of_not_match assets op (by simpa using hall op hop)
    calc content.map (replaceOp assets) = content.map id := List.map_congr_left hid
      _ = content := List.map_id content

/-- C5 witness: text-only content with a populated asset map. -/
theorem replaceAssets_noMatch_witness :
    ([⟨some (.str ['a']), none⟩] : List Op).any (imageMatch [("u", "v")]) = false ∧
    replaceAssets [⟨some (.str ['a']), none⟩] [("u", "v")] = none :=
  ⟨by decide, (replaceAssets_noMatch _ _ (by decide)).1⟩

/-- The no-op condition of the empty-replacement claim, per op: either
the op is not an image embed, or its URI is not a key of the assets map,
or its matched mapping maps to the empty string. -/
def matchedToEmpty (assets : List (String × String)) (op : Op) : Bool :=
  match opImage op with
  | some uri =>
    match assets.lookup uri with
    | some r => decide (r = "")
    | none => true
  | none => true

/-- C10: a mapping whose replacement URI is the empty string is falsy and
treated as no match.  First conjunct, per op and for an arbitrary assets
map (other entries may be non-empty and other ops of the same call may be
rewritten): an image op whose URI maps to the empty string does not match
and keeps its original URI under the rewrite map.  Second conjunct: when
every matched mapping of the call maps to the empty string, the call is a
no-op that rewrites nothing and emits no change callback. -/
theorem replaceAssets_empty_replacement (content : List Op) (assets : List (String × String)) :
    (∀ op data uri, op.insert = some (.embed data) → data.lookup "image" = some uri →
      assets.lookup uri = some "" →
      imageMatch assets op = false ∧ replaceOp assets op = op) ∧
    (content.all (matchedToEmpty assets) = true →
      replaceAssets content assets = none ∧ content.map (replaceOp assets) = content) := by
  constructor
  · intro op data uri hins hu ha
    have hoi : opImage op = some uri := by
      unfold opImage
      rw [hins]
      exact hu
    have hhit : assetHit assets op = none := by
      unfold assetHit
      rw [hoi]
      show truthyLookup assets uri = none
      unfold truthyLookup
      rw [ha]
      show (if ("" : String) = "" then (none : Option String) else some "") = none
      rw [if_pos rfl]
    constructor
    · unfold imageMatch
      rw [hhit]
      rfl
    · unfold replaceOp
      rw [hhit]
  · intro h
    have hall := List.all_eq_true.mp h
    have hmatch : ∀ op ∈ content, imageMatch assets op = false := by
      intro op hop
      unfold imageMatch
      cases hhit : assetHit assets op with
      | none => rfl
      | some r =>
        exfalso
        obtain ⟨data, uri, hins, hu, hal, hr⟩ := assetHit_some assets op r hhit
        have hoi : opImage op = some uri := by
          unfold opImage
          rw [hins]
          exact hu
        have hmt := hall op hop
        unfold matchedToEmpty at hmt
        rw [hoi] at hmt
        have hmt2 : (match assets.lookup uri with
          | some r => decide (r = "")
          | none => true) = true := hmt
        rw [hal] at hmt2
        have hmt3 : decide (r = "") = true := hmt2
        exact hr (of_decide_eq_true hmt3)
    constructor
    · have hany : content.any (imageMatch assets) = false := by
        rw [List.any_eq_false]
        intro op hop
        simp [hmatch op hop]
      simp [replaceAssets, hany]
    · have hid : ∀ op ∈ content, replaceOp assets op = op := fun op hop =>
        replaceOp_of_not_match assets op (hmatch op hop)
      calc content.map (replaceOp assets) = content.map id := List.map_congr_left hid
        _ = content := List.map_id content

/-- C10 witness: with the mixed map u mapped to the empty string and w
mapped to "x", the image op for u does not match and keeps its URI; a call
whose only image is u is a no-op; a call holding both images fires the
callback with u kept and w rewritten. -/
theorem replaceAssets_empty_replacement_witness :
    imageMatch [("u", ""), ("w", "x")] ⟨some (.embed [("image", "u")]), none⟩ = false ∧
    replaceOp [("u", ""), ("w", "x")] ⟨some (.embed [("image", "u")]), none⟩ =
      ⟨some (.embed [("image", "u")]), none⟩ ∧
    replaceAssets [⟨some (.embed [("image", "u")]), none⟩] [("u", ""), ("w", "x")] = none ∧
    replaceAssets [⟨some (.embed [("image", "u")]), none⟩, ⟨some (.embed [("image", "w")]), none⟩]
        [("u", ""), ("w", "x")] =
      some [⟨[⟨.embed [("image", "u")], []⟩, ⟨.embed [("image", "x")], []⟩], []⟩] := by
  have h := replaceAssets_empty_replacement
    [⟨some (.embed [("image", "u")]), none⟩] [("u", ""), ("w", "x")]
  have ha := h.1 ⟨some (.embed [("image", "u")]), none⟩ [("image", "u")] "u" rfl
    (by decide) (by decide)
  exact ⟨ha.1, ha.2, (h.2 (by decide)).1, by decide⟩

/-! ### Claim C6: pointer-gated propagation

The propagation logic lives in the `mouseDown`/`capture` state hooks
(lines 124-125), the propagation effect (lines 128-133), the
`text-change` listener (lines 207-209) and the container mouse handlers
(lines 225-232).  The UI framework reruns the effect whenever one of its
dependencies `capture`, `mouseDown` changes; this scheduling is modelled
by rerunning the effect after every event. -/

/-- Component state relevant to change propagation; a mounted editor
instance is assumed present. -/
structure CompState where
  mouseDown : Bool
  capture : Option (List Op)
deriving DecidableEq

/-- UI events driving the propagation logic.  The payload of
`textChangeEv` is the composed document `oldContent.compose(delta)` the
listener stores in `capture`. -/
inductive Ev where
  | mouseDownEv
  | mouseUpEv
  | textChangeEv (d : List Op)
deriving DecidableEq

/-- The propagation effect (lines 128-133): when no pointer interaction
is in progress and a capture is pending, clear the capture and invoke
`onChangeValue` once with the normalized decoded document. -/
def runEffect (s : CompState) : CompState × Option (List Line) :=
  if s.mouseDown then (s, none)
  else
    match s.capture with
    | none => (s, none)
    | some d => (⟨s.mouseDown, none⟩, some (_removeEmptyLines (decodeContent (some d))))

/-- State update performed by one event handler. -/
def applyEv (s : CompState) : Ev → CompState
  | .mouseDownEv => ⟨true, s.capture⟩
  | .mouseUpEv => ⟨false, s.capture⟩
  | .textChangeEv d => ⟨s.mouseDown, some d⟩

/-- One event handler followed by the rerun of the propagation effect. -/
def step (s : CompState) (e : Ev) : CompState × Option (List Line) :=
  runEffect (applyEv s e)

/-- A sequence of events, collecting the emitted change callbacks. -/
def runEvents : CompState → List Ev → CompState × List (List Line)
  | s, [] => (s, [])
  | s, e :: evs =>
    let r1 := step s e
    let r2 := runEvents r1.1 evs
    (r2.1, r1.2.toList ++ r2.2)

/-- Whether an event is the mouse-up. -/
def Ev.isUp : Ev → Bool
  | .mouseUpEv => true
  | _ => false

theorem runEvents_suppressed (evs : List Ev) : ∀ s : CompState, s.mouseDown = true →
    (evs.all fun e => !e.isUp) = true →
    (runEvents s evs).2 = [] ∧ (runEvents s evs).1.mouseDown = true := by
  induction evs with
  | nil => intro s hmd _; exact ⟨rfl, hmd⟩
  | cons e rest ih =>
    intro s hmd hall
    simp only [List.all_cons, Bool.and_eq_true] at hall
    have happ : (applyEv s e).mouseDown = true := by
      cases e with
      | mouseDownEv => rfl
      | mouseUpEv => simp [Ev.isUp] at hall
      | textChangeEv d2 => simpa [applyEv] using hmd
    have hstep : step s e = (applyEv s e, none) := by
      unfold step runEffect
      rw [if_pos happ]
    have hrun : runEvents s (e :: rest) =
        ((runEvents (step s e).1 rest).1, (step s e).2.toList ++ (runEvents (step s e).1 rest).2) :=
      rfl
    rw [hrun, hstep]
    obtain ⟨h1, h2⟩ := ih (applyEv s e) happ hall.2
    exact ⟨by simp [h1], h2⟩

/-- C6: while the mouse is down, no sequence of further mouse-downs and
text changes emits a change callback; on mouse-up with a capture pending,
the callback fires exactly once with the captured document (decoded and
normalized), the capture is cleared and a further run of the effect emits
nothing. -/
theorem pointer_gating (s : CompState) (evs : List Ev) (d : List Op)
    (hmd : s.mouseDown = true) :
    ((evs.all fun e => !e.isUp) = true →
      (runEvents s evs).2 = [] ∧ (runEvents s evs).1.mouseDown = true) ∧
    (s.capture = some d →
      step s .mouseUpEv =
        (⟨false, none⟩, some (_removeEmptyLines (decodeContent (some d)))) ∧
      (runEffect ⟨false, none⟩).2 = none) := by
  constructor
  · exact runEvents_suppressed evs s hmd
  · intro hcap
    constructor
    · show runEffect ⟨false, s.capture⟩ = _
      rw [hcap]
      rfl
    · rfl

/-- C6 witness: a text change during a drag emits nothing; the following
mouse-up emits the captured document exactly once. -/
theorem pointer_gating_witness :
    (runEvents ⟨true, some [⟨some (.str ['x']), none⟩]⟩
      [Ev.textChangeEv [⟨some (.str ['x']), none⟩]]).2 = [] ∧
    step ⟨true, some [⟨some (.str ['x']), none⟩]⟩ Ev.mouseUpEv =
      (⟨false, none⟩, some [⟨[⟨.str ['x'], []⟩], []⟩]) := by
  have h := pointer_gating ⟨true, some [⟨some (.str ['x']), none⟩]⟩
    [Ev.textChangeEv [⟨some (.str ['x']), none⟩]] [⟨some (.str ['x']), none⟩] rfl
  exact ⟨(h.1 (by decide)).1, ((h.2 rfl).1).trans (by decide)⟩

/-! ### Claims C3 and C8: the value-change reset effect (lines 135-151)

The effect uses engine and quill-delta primitives that are external to
this repository (`getContents`, `setContents`, `getSelection`, `hasFocus`,
`Delta.diff`, `Delta.transformPosition`); they are modelled from the spec
as noted on each definition. -/

/-- A diff delta operation of the external engine. -/
inductive DOp where
  | ins (n : Nat)
  | del (n : Nat)
  | ret (n : Nat)
deriving DecidableEq

/-- Length contributed by one diff op. -/
def dopLen : DOp → Nat
  | .ins n => n
  | .del n => n
  | .ret n => n

/-- Modelled from the spec: quill-delta `Delta.length`, the sum of op
lengths. -/
def deltaLen (d : List DOp) : Nat := d.foldl (fun n op => n + dopLen op) 0

/-- Modelled from the spec: the loop of quill-delta `transformPosition`
(priority false): while ops remain and the running offset is at most the
index, a delete pulls the index back by the deleted length clipped to the
distance past the offset, an insert pushes the index forward, and a
retain advances only the offset. -/
def transformPosAux : List DOp → Nat → Nat → Nat
  | [], _, index => index
  | op :: rest, offset, index =>
    if offset ≤ index then
      match op with
      | .del n => transformPosAux rest offset (index - min n (index - offset))
      | .ins n => transformPosAux rest (offset + n) (index + n)
      | .ret n => transformPosAux rest (offset + n) index
    else index

/-- Modelled from the spec: quill-delta `transformPosition`. -/
def transformPosition (d : List DOp) (index : Nat) : Nat := transformPosAux d 0 index

/-- Character length of a document delta. -/
def docLength (ops : List Op) : Nat := (docChars ops).length

/-- Modelled from the spec: the external quill-delta document diff.  The
property the adapter relies on is that diffing equal documents (equal
character streams with equal per-atom attributes) yields the empty delta,
of zero length; for unequal documents the model returns a full rewrite, a
correct though not minimal diff, of positive length like the real one. -/
def deltaDiff (a b : List Op) : List DOp :=
  if docChars a = docChars b then [] else [.del (docLength a), .ins (docLength b)]

/-- A selection range (`index`, `length`). -/
structure Sel where
  index : Nat
  len : Nat
deriving DecidableEq

/-- Editor state as seen through the engine interface used by the effect.
Modelled from the spec: the engine stores the delta applied by
`setContents` verbatim and returns it from `getContents`. -/
structure EditorState where
  contents : List Op
  selection : Option Sel
  focused : Bool
deriving DecidableEq

/-- Embedding of the value-change effect (lines 135-151): return if a
pointer interaction is in progress; return when the diff between the
externally-normalized current content and the desired content has zero
length; otherwise capture the selection when focused, apply the content
silently (modelled as replacing the stored contents, the engine selection
cleared), and if a selection was captured, remap its index through
`getContents().diff(content)` — the diff of the just-applied content
against itself — and restore it. -/
def valueChangeEffect (st : EditorState) (mouseDown : Bool) (content : List Op) : EditorState :=
  if mouseDown then st
  else if deltaLen (deltaDiff (encodeContent (_removeEmptyLines
      (decodeContent (some st.contents)))) content) = 0 then st
  else
    let sel := if st.focused then st.selection else none
    match sel with
    | none => ⟨content, none, st.focused⟩
    | some s =>
      let diff := deltaDiff content content
      ⟨content, some ⟨transformPosition diff s.index, s.len⟩, st.focused⟩

/-- C8: when the diff between the externally-normalized current editor
content and the desired content has zero length, the effect changes
nothing: contents and selection are left exactly as they were. -/
theorem valueChange_skip_when_equal (st : EditorState) (content : List Op)
    (h : deltaLen (deltaDiff (encodeContent (_removeEmptyLines
      (decodeContent (some st.contents)))) content) = 0) :
    valueChangeEffect st false content = st := by
  unfold valueChangeEffect
  rw [if_neg (by simp), if_pos h]

/-- C8 witness: resetting an empty editor to the empty content is a
no-op that keeps the selection. -/
theorem valueChange_skip_when_equal_witness :
    deltaLen (deltaDiff (encodeContent (_removeEmptyLines
      (decodeContent (some ([] : List Op))))) ([] : List Op)) = 0 ∧
    valueChangeEffect ⟨[], some ⟨0, 0⟩, true⟩ false [] = ⟨[], some ⟨0, 0⟩, true⟩ :=
  ⟨by decide, valueChange_skip_when_equal _ _ (by decide)⟩

/-- C3: the restored selection index always equals the pre-reset index.
Line 147 computes the transform diff only after `setContents`, so
`getContents().diff(content)` compares the just-applied content with
itself, is empty, and `transformPosition` is the identity — the index is
not mapped through the diff from the pre-reset contents to the new
content as the claim states. -/
theorem reset_selection_not_remapped (st : EditorState) (content : List Op) (s : Sel)
    (hf : st.focused = true) (hs : st.selection = some s)
    (hg : deltaLen (deltaDiff (encodeContent (_removeEmptyLines
      (decodeContent (some st.contents)))) content) ≠ 0) :
    valueChangeEffect st false content = ⟨content, some ⟨s.index, s.len⟩, true⟩ := by
  unfold valueChangeEffect
  rw [if_neg (by simp), if_neg hg]
  have hsel : (if st.focused then st.selection else none) = some s := by
    simp [hf, hs]
  rw [hsel, hf]
  have hd : deltaDiff content content = [] := by
    unfold deltaDiff
    rw [if_pos rfl]
  rw [hd]
  rfl

/-- C3 witness, the failing input: contents "ab" with the caret at index
2, new content "Xab"; the effect restores index 2 although the
corresponding position in "Xab" is 3. -/
theorem reset_selection_not_remapped_witness :
    deltaLen (deltaDiff (encodeContent (_removeEmptyLines (decodeContent
      (some [⟨some (.str ['a', 'b']), none⟩])))) [⟨some (.str ['X', 'a', 'b']), none⟩]) ≠ 0 ∧
    valueChangeEffect ⟨[⟨some (.str ['a', 'b']), none⟩], some ⟨2, 0⟩, true⟩ false
        [⟨some (.str ['X', 'a', 'b']), none⟩] =
      ⟨[⟨some (.str ['X', 'a', 'b']), none⟩], some ⟨2, 0⟩, true⟩ :=
  ⟨by decide, reset_selection_not_remapped _ _ _ rfl rfl (by decide)⟩

end FrostyQuill
